import Mathlib

/-!
Verification of the CPA LinkedIn-profile scraper.

The repository has two implementations of the search pipeline:
  * src/linkedin_finder.py, function search_cpa_profiles (query building,
    filtering with five excluded segments, URL normalization, per-target
    deduplication, no placeholder rows);
  * src/demo_app.py, function search_profiles (filtering with three excluded
    segments, URL normalization, no deduplication, a placeholder row per
    person with no accepted results).

Strings are modelled as List Char.  The URL normalization in both files is
urlunparse((p.scheme, p.netloc, p.path, "", "", "")) over p = urlparse(raw);
urlparse/urlunparse are modelled below after CPython 3.11 urllib.parse
(urlsplit input sanitization, scheme/netloc/fragment/query splitting, the
params split of urlparse, and urlunsplit reassembly).  The ValueError paths
of urlsplit for invalid bracketed (IPv6) hosts and the NFKC check on netloc
are outside the model; on bracket-free inputs the model follows CPython.
The external network call is injected as a FetchOutcome per target:
failure stands for a raised requests exception, success carries the decoded
JSON body (its optional "organic" list).
-/

set_option maxHeartbeats 1000000

namespace CpaScraper

/-! ## Character classes used by urllib.parse -/

/-- Characters allowed in a scheme after the first one:
CPython scheme_chars = ascii letters, digits, and the three marks. -/
def isSchemeChar (c : Char) : Bool :=
  c.isAlphanum || c == '+' || c == '-' || c == '.'

/-- Characters ending the netloc portion: CPython _splitnetloc scans for
the earliest of these three delimiters. -/
def isNetlocDelim (c : Char) : Bool :=
  c == '/' || c == '?' || c == '#'

/-- Membership in CPython _WHATWG_C0_CONTROL_OR_SPACE (codepoints 0..0x20). -/
def isC0OrSpace (c : Char) : Bool :=
  decide (c.toNat ≤ 32)

/-- Membership in CPython _UNSAFE_URL_BYTES_TO_REMOVE (tab, CR, LF). -/
def isUnsafeByte (c : Char) : Bool :=
  c == '\t' || c == '\r' || c == '\n'

/-- Input sanitization at the top of CPython urlsplit: strip leading
C0-control/space characters, then delete every tab, CR and LF. -/
def sanitizeUrl (u : List Char) : List Char :=
  (u.dropWhile isC0OrSpace).filter (fun c => !isUnsafeByte c)

/-! ## Generic splitting helpers -/

/-- Split a list at the first occurrence of a character, as Python
s.split(t, 1): the part before it, and (if found) the part after it. -/
def splitAtChar (t : Char) : List Char → List Char × Option (List Char)
  | [] => ([], none)
  | c :: cs =>
    if c = t then ([], some cs)
    else
      let r := splitAtChar t cs
      (c :: r.1, r.2)

/-- Decompose a list around its last '/' (Python url.rfind with '/'):
some (before, after) with the list equal to before ++ '/' :: after and no
'/' in after; none when there is no '/'. -/
def lastSlashSplit : List Char → Option (List Char × List Char)
  | [] => none
  | c :: cs =>
    match lastSlashSplit cs with
    | some (pre, post) => some (c :: pre, post)
    | none => if c = '/' then some ([], cs) else none

/-! ## urlparse -/

/-- Validity test for the text before the first colon, mirroring the CPython
urlsplit guard: nonempty, ASCII-alphabetic first character, every further
character a scheme character. -/
def validSchemePre : List Char → Bool
  | [] => false
  | c :: cs => c.isAlpha && cs.all isSchemeChar

/-- Scheme extraction of CPython urlsplit: split at the first colon; when
the part before it passes the guard, the lowercased scheme and the text
after the colon; otherwise no scheme and the input unchanged. -/
def splitScheme (url : List Char) : List Char × List Char :=
  match (splitAtChar ':' url).2 with
  | some rest =>
    if validSchemePre (splitAtChar ':' url).1 then
      ((splitAtChar ':' url).1.map Char.toLower, rest)
    else ([], url)
  | none => ([], url)

/-- Test for a leading '/' (Python url[:1] == '/'). -/
def startsWithSlash (l : List Char) : Bool := l.head? == some '/'

/-- Test for a leading "//" (Python url[:2] == '//'). -/
def startsWithSlashSlash (l : List Char) : Bool :=
  l.head? == some '/' && l.tail.head? == some '/'

/-- Netloc extraction of CPython urlsplit: when the text begins with two
slashes, the netloc runs from there to the first '/', '?' or '#'. -/
def splitNetloc (url : List Char) : List Char × List Char :=
  if startsWithSlashSlash url then
    ((url.drop 2).takeWhile (fun c => !isNetlocDelim c),
     (url.drop 2).dropWhile (fun c => !isNetlocDelim c))
  else ([], url)

/-- Fragment split of CPython urlsplit (url.split('#', 1) when '#' occurs). -/
def splitFragment (url : List Char) : List Char × List Char :=
  ((splitAtChar '#' url).1, ((splitAtChar '#' url).2).getD [])

/-- Query split of CPython urlsplit (url.split('?', 1) when '?' occurs). -/
def splitQuery (url : List Char) : List Char × List Char :=
  ((splitAtChar '?' url).1, ((splitAtChar '?' url).2).getD [])

/-- Schemes for which urlparse separates path parameters
(CPython uses_params). -/
def usesParams : List (List Char) :=
  [[], ("ftp").toList, ("hdl").toList, ("prospero").toList, ("http").toList,
   ("imap").toList, ("https").toList, ("shttp").toList, ("rtsp").toList,
   ("rtsps").toList, ("rtspu").toList, ("sip").toList, ("sips").toList,
   ("mms").toList, ("sftp").toList, ("tel").toList]

/-- Schemes for which urlunsplit reintroduces the "//" netloc marker even
with an empty netloc (CPython uses_netloc). -/
def usesNetloc : List (List Char) :=
  [[], ("ftp").toList, ("http").toList, ("gopher").toList, ("nntp").toList,
   ("telnet").toList, ("imap").toList, ("wais").toList, ("file").toList,
   ("mms").toList, ("https").toList, ("shttp").toList, ("snews").toList,
   ("prospero").toList, ("rtsp").toList, ("rtsps").toList, ("rtspu").toList,
   ("rsync").toList, ("svn").toList, ("svn+ssh").toList, ("sftp").toList,
   ("nfs").toList, ("git").toList, ("git+ssh").toList, ("ws").toList,
   ("wss").toList]

/-- Parameter split of CPython _splitparams, extended to return the input
unchanged with empty params when no ';' is found (which agrees with the
urlparse caller, since that caller skips the split when ';' is absent):
with a '/', look for the first ';' in the last segment only; without one,
at the first ';' anywhere. -/
def splitParams (url : List Char) : List Char × List Char :=
  match lastSlashSplit url with
  | some (pre, seg) =>
    match (splitAtChar ';' seg).2 with
    | some s2 => (pre ++ '/' :: (splitAtChar ';' seg).1, s2)
    | none => (url, [])
  | none =>
    match (splitAtChar ';' url).2 with
    | some s2 => ((splitAtChar ';' url).1, s2)
    | none => (url, [])

/-- Parsed URL components, as the six fields of a CPython ParseResult. -/
structure UrlParts where
  scheme : List Char
  netloc : List Char
  path : List Char
  params : List Char
  query : List Char
  fragment : List Char
deriving Repr, DecidableEq

/-- Component splitting of CPython urlsplit/urlparse on an already
sanitized input: scheme, then netloc, then fragment, then query, then
(for schemes using them) path parameters. -/
def urlparseCore (u : List Char) : UrlParts :=
  let scheme := (splitScheme u).1
  let r1 := (splitScheme u).2
  let netloc := (splitNetloc r1).1
  let r2 := (splitNetloc r1).2
  let r3 := (splitFragment r2).1
  let fragment := (splitFragment r2).2
  let path0 := (splitQuery r3).1
  let query := (splitQuery r3).2
  let pp := if scheme ∈ usesParams then splitParams path0 else (path0, [])
  ⟨scheme, netloc, pp.1, pp.2, query, fragment⟩

/-- Model of CPython urllib.parse.urlparse. -/
def urlparse (u : List Char) : UrlParts :=
  urlparseCore (sanitizeUrl u)

/-! ## urlunparse -/

/-- Leading-slash adjustment inside CPython urlunsplit
(if url and url[:1] != '/': url = '/' + url). -/
def ensureSlash (path : List Char) : List Char :=
  if !path.isEmpty && !startsWithSlash path then '/' :: path else path

/-- Model of CPython 3.11 urllib.parse.urlunsplit: the "//" marker is
written back when the netloc is nonempty, or when the scheme is one of
usesNetloc and the path does not itself begin with "//". -/
def urlunsplit (scheme netloc path query fragment : List Char) : List Char :=
  let p1 :=
    if !netloc.isEmpty ||
        (!scheme.isEmpty && decide (scheme ∈ usesNetloc) &&
          !startsWithSlashSlash path) then
      '/' :: '/' :: (netloc ++ ensureSlash path)
    else path
  let p2 := if !scheme.isEmpty then scheme ++ ':' :: p1 else p1
  let p3 := if !query.isEmpty then p2 ++ '?' :: query else p2
  if !fragment.isEmpty then p3 ++ '#' :: fragment else p3

/-- Model of CPython urllib.parse.urlunparse. -/
def urlunparse (p : UrlParts) : List Char :=
  urlunsplit p.scheme p.netloc
    (if !p.params.isEmpty then p.path ++ ';' :: p.params else p.path)
    p.query p.fragment

/-- URL normalization of both pipelines (linkedin_finder.py lines 116-117,
demo_app.py lines 71-72): parse, then reassemble from scheme, netloc and
path only. -/
def normalizeUrl (raw : List Char) : List Char :=
  let parsed := urlparse raw
  urlunparse ⟨parsed.scheme, parsed.netloc, parsed.path, [], [], []⟩

/-! ## Substring containment (Python "x in s" on strings) -/

/-- Substring test: Python "pat in s" for strings. -/
def containsSub (pat : List Char) : List Char → Bool
  | [] => pat.isEmpty
  | c :: cs => pat.isPrefixOf (c :: cs) || containsSub pat cs

/-! ## Data model of the pipelines -/

/-- Target individual: one entry of input_data in linkedin_finder.py, or of
names_list in demo_app.py. -/
structure Target where
  name : List Char
  state : List Char
deriving Repr, DecidableEq

/-- Raw search result: one entry of the "organic" list of the decoded API
response; every field may be absent. -/
structure RawResult where
  link : Option (List Char)
  title : Option (List Char)
  snippet : Option (List Char)
deriving Repr, DecidableEq

/-- Decoded response body: response.json(), of which the code reads only
data.get("organic", []). -/
structure SerperResponse where
  organic : Option (List RawResult)
deriving Repr, DecidableEq

/-- Outcome of the network call for one target: failure stands for a raised
requests exception (linkedin_finder.py lines 101-103, demo_app.py lines
95-96), success carries the decoded body. -/
inductive FetchOutcome where
  | failure : FetchOutcome
  | success : SerperResponse → FetchOutcome
deriving Repr, DecidableEq

/-- Output row of search_cpa_profiles (linkedin_finder.py lines 129-136). -/
structure ResultRecord where
  input_name : List Char
  input_state : List Char
  google_rank : Nat
  linkedin_url : List Char
  meta_title : List Char
  meta_description : List Char
deriving Repr, DecidableEq

/-! ## linkedin_finder.py: search_cpa_profiles -/

/-- Literal "linkedin.com/in/" of the profile test. -/
def profileMarker : List Char := ("linkedin.com/in/").toList

/-- Excluded segments of linkedin_finder.py line 113. -/
def excludedSegments : List (List Char) :=
  [("/company/").toList, ("/jobs/").toList, ("/posts/").toList,
   ("/school/").toList, ("/pulse/").toList]

/-- Filter of linkedin_finder.py line 113: the raw link contains
"linkedin.com/in/" and none of the five excluded segments. -/
def acceptLink (raw_url : List Char) : Bool :=
  containsSub profileMarker raw_url &&
    !(excludedSegments.any (fun x => containsSub x raw_url))

/-- Query template of linkedin_finder.py line 84. -/
def buildQuery (name state : List Char) : List Char :=
  ("\"").toList ++ name ++ ("\" \"CPA\" \"").toList ++ state ++
    ("\" \"United States\" LinkedIn").toList

/-- Inner loop of search_cpa_profiles (linkedin_finder.py lines 108-136):
walk the organic results with a 1-based index, keep links passing the
filter whose normalized URL is not in the seen set, and extend the seen
set with each emitted URL. -/
def scanResults (name state : List Char) (idx : Nat)
    (seen_urls : List (List Char)) : List RawResult → List ResultRecord
  | [] => []
  | result :: rest =>
    let raw_url := result.link.getD []
    if acceptLink raw_url then
      let clean_url := normalizeUrl raw_url
      if clean_url ∈ seen_urls then
        scanResults name state (idx + 1) seen_urls rest
      else
        { input_name := name, input_state := state, google_rank := idx,
          linkedin_url := clean_url,
          meta_title := result.title.getD [],
          meta_description := result.snippet.getD [] }
          :: scanResults name state (idx + 1) (clean_url :: seen_urls) rest
    else
      scanResults name state (idx + 1) seen_urls rest

/-- Per-target step of search_cpa_profiles: a raised request exception
skips the target (lines 101-103); otherwise the organic list (defaulting
to empty, line 100) is scanned with a fresh seen set (line 105). -/
def processTarget (person : Target) (outcome : FetchOutcome) :
    List ResultRecord :=
  match outcome with
  | .failure => []
  | .success data =>
    scanResults person.name person.state 1 [] (data.organic.getD [])

/-- Model of search_cpa_profiles (linkedin_finder.py lines 59-141), with
the outcome of each target's network call injected; all_results is the
concatenation of the rows of the targets in order. -/
def searchCpaProfiles : List (Target × FetchOutcome) → List ResultRecord
  | [] => []
  | (person, outcome) :: rest =>
    processTarget person outcome ++ searchCpaProfiles rest

/-! ## demo_app.py: search_profiles -/

/-- Excluded segments of demo_app.py line 68 (three only). -/
def demoExcludedSegments : List (List Char) :=
  [("/company/").toList, ("/jobs/").toList, ("/posts/").toList]

/-- Filter of demo_app.py line 68. -/
def demoAcceptLink (link : List Char) : Bool :=
  containsSub profileMarker link &&
    !(demoExcludedSegments.any (fun x => containsSub x link))

/-- Output row of search_profiles (demo_app.py lines 74-81 and 86-93).
googleRank none models the "-" sentinel of the placeholder row; title and
snippet are item.get('title') and item.get('snippet'), hence absent when
the source field is absent. -/
structure DemoRow where
  input_name : List Char
  input_state : List Char
  googleRank : Option Nat
  title : Option (List Char)
  snippet : Option (List Char)
  linkedinUrl : List Char
deriving Repr, DecidableEq

/-- Placeholder row of demo_app.py lines 86-93. -/
def demoPlaceholder (name state : List Char) : DemoRow :=
  { input_name := name, input_state := state, googleRank := none,
    title := some (("No Profile Found").toList),
    snippet := some (("-").toList),
    linkedinUrl := ("-").toList }

/-- Inner loop of search_profiles (demo_app.py lines 64-82): 1-based rank,
the three-segment filter, no deduplication. -/
def demoScan (name state : List Char) (rank : Nat) :
    List RawResult → List DemoRow
  | [] => []
  | item :: rest =>
    let link := item.link.getD []
    if demoAcceptLink link then
      { input_name := name, input_state := state, googleRank := some rank,
        title := item.title, snippet := item.snippet,
        linkedinUrl := normalizeUrl link }
        :: demoScan name state (rank + 1) rest
    else
      demoScan name state (rank + 1) rest

/-- Per-person step of search_profiles: a raised exception yields no rows
(lines 95-96); otherwise the scanned rows, or the placeholder row when
none was produced (found_for_person false, lines 85-93). -/
def demoProcessPerson (name state : List Char) (outcome : FetchOutcome) :
    List DemoRow :=
  match outcome with
  | .failure => []
  | .success data =>
    let rows := demoScan name state 1 (data.organic.getD [])
    if rows.isEmpty then [demoPlaceholder name state] else rows

/-- Model of search_profiles (demo_app.py lines 29-98), with the outcome of
each person's network call injected. -/
def searchProfiles : List (Target × FetchOutcome) → List DemoRow
  | [] => []
  | (person, outcome) :: rest =>
    demoProcessPerson person.name person.state outcome ++ searchProfiles rest

/-! ## Character-level lemmas -/

theorem toNat_ofNat_small (n : Nat) (h : n < 55296) : (Char.ofNat n).toNat = n := by
  rw [Char.ofNat, dif_pos (Or.inl h)]
  rfl

theorem isUpper_iff (c : Char) : c.isUpper = true ↔ 65 ≤ c.toNat ∧ c.toNat ≤ 90 := by
  simp only [Char.isUpper, Bool.and_eq_true, decide_eq_true_eq]
  exact Iff.rfl

theorem isLower_iff (c : Char) : c.isLower = true ↔ 97 ≤ c.toNat ∧ c.toNat ≤ 122 := by
  simp only [Char.isLower, Bool.and_eq_true, decide_eq_true_eq]
  exact Iff.rfl

theorem isDigit_iff (c : Char) : c.isDigit = true ↔ 48 ≤ c.toNat ∧ c.toNat ≤ 57 := by
  simp only [Char.isDigit, Bool.and_eq_true, decide_eq_true_eq]
  exact Iff.rfl

theorem toLower_eq (c : Char) :
    c.toLower = if 65 ≤ c.toNat ∧ c.toNat ≤ 90 then Char.ofNat (c.toNat + 32) else c := by
  rfl

theorem toLower_of_not_upper {c : Char} (h : ¬(65 ≤ c.toNat ∧ c.toNat ≤ 90)) :
    c.toLower = c := by
  rw [toLower_eq, if_neg h]

theorem toNat_toLower_of_upper {c : Char} (h : 65 ≤ c.toNat ∧ c.toNat ≤ 90) :
    c.toLower.toNat = c.toNat + 32 := by
  rw [toLower_eq, if_pos h, toNat_ofNat_small]
  omega

theorem isAlpha_iff (c : Char) :
    c.isAlpha = true ↔ (65 ≤ c.toNat ∧ c.toNat ≤ 90) ∨ (97 ≤ c.toNat ∧ c.toNat ≤ 122) := by
  simp only [Char.isAlpha, Bool.or_eq_true, isUpper_iff, isLower_iff]

theorem isAlpha_toLower {c : Char} (h : c.isAlpha = true) : c.toLower.isAlpha = true := by
  rcases (isAlpha_iff c).mp h with hu | hl
  · have ht := toNat_toLower_of_upper hu
    rw [isAlpha_iff]
    omega
  · rw [toLower_of_not_upper (by omega)]
    exact h

theorem toLower_toLower (c : Char) : c.toLower.toLower = c.toLower := by
  by_cases h : 65 ≤ c.toNat ∧ c.toNat ≤ 90
  · have ht := toNat_toLower_of_upper h
    exact toLower_of_not_upper (by omega)
  · rw [toLower_of_not_upper h, toLower_of_not_upper h]

theorem isSchemeChar_toLower {c : Char} (h : isSchemeChar c = true) :
    isSchemeChar c.toLower = true := by
  by_cases hu : 65 ≤ c.toNat ∧ c.toNat ≤ 90
  · have ht := toNat_toLower_of_upper hu
    have ha : c.toLower.isAlpha = true := by
      rw [isAlpha_iff]
      omega
    simp [isSchemeChar, Char.isAlphanum, ha]
  · rw [toLower_of_not_upper hu]
    exact h

theorem isAlpha_toNat_gt {c : Char} (h : c.isAlpha = true) : 32 < c.toNat := by
  rw [isAlpha_iff] at h
  omega

theorem isAlpha_ne {c x : Char} (h : c.isAlpha = true) (hx : x.isAlpha = false) : c ≠ x := by
  intro hc
  subst hc
  rw [h] at hx
  cases hx

theorem isSchemeChar_ne {c x : Char} (h : isSchemeChar c = true)
    (hx : isSchemeChar x = false) : c ≠ x := by
  intro hc
  subst hc
  rw [h] at hx
  cases hx

theorem isNetlocDelim_ne {c x : Char} (h : isNetlocDelim c = false)
    (hx : isNetlocDelim x = true) : c ≠ x := by
  intro hc
  subst hc
  rw [h] at hx
  cases hx

/-! ## Lemmas on splitAtChar -/

theorem splitAtChar_snd_none {t : Char} : ∀ {l : List Char},
    (splitAtChar t l).2 = none → (splitAtChar t l).1 = l ∧ t ∉ l := by
  intro l
  induction l with
  | nil => simp [splitAtChar]
  | cons c cs ih =>
    by_cases hc : c = t
    · simp [splitAtChar, hc]
    · intro h
      simp only [splitAtChar, if_neg hc] at h ⊢
      rcases ih h with ⟨h1, h2⟩
      refine ⟨by rw [h1], ?_⟩
      simp only [List.mem_cons, not_or]
      exact ⟨fun ht => hc ht.symm, h2⟩

theorem splitAtChar_some {t : Char} : ∀ {l r : List Char},
    (splitAtChar t l).2 = some r →
      l = (splitAtChar t l).1 ++ t :: r ∧ t ∉ (splitAtChar t l).1 := by
  intro l
  induction l with
  | nil => simp [splitAtChar]
  | cons c cs ih =>
    intro r h
    by_cases hc : c = t
    · simp only [splitAtChar, if_pos hc] at h ⊢
      cases h
      subst hc
      simp
    · simp only [splitAtChar, if_neg hc] at h ⊢
      rcases ih h with ⟨h1, h2⟩
      constructor
      · rw [List.cons_append, ← h1]
      · simp only [List.mem_cons, not_or]
        exact ⟨fun ht => hc ht.symm, h2⟩

theorem splitAtChar_fst_le (t : Char) (l : List Char) : (splitAtChar t l).1 <+: l := by
  cases h : (splitAtChar t l).2 with
  | none => rw [(splitAtChar_snd_none h).1]
  | some r => exact ⟨t :: r, ((splitAtChar_some h).1).symm⟩

theorem splitAtChar_of_not_mem {t : Char} : ∀ {l : List Char},
    t ∉ l → splitAtChar t l = (l, none) := by
  intro l
  induction l with
  | nil => simp [splitAtChar]
  | cons c cs ih =>
    intro h
    simp only [List.mem_cons, not_or] at h
    have hct : ¬c = t := fun hc => h.1 hc.symm
    simp only [splitAtChar, if_neg hct, ih h.2]

theorem splitAtChar_append {t : Char} : ∀ {pre post : List Char},
    t ∉ pre → splitAtChar t (pre ++ t :: post) = (pre, some post) := by
  intro pre
  induction pre with
  | nil => simp [splitAtChar]
  | cons c cs ih =>
    intro post h
    simp only [List.mem_cons, not_or] at h
    have hct : ¬c = t := fun hc => h.1 hc.symm
    simp only [List.cons_append, List.append_eq, splitAtChar, if_neg hct, ih h.2]

/-! ## Lemmas on lastSlashSplit -/

theorem lastSlashSplit_of_not_mem : ∀ {l : List Char},
    '/' ∉ l → lastSlashSplit l = none := by
  intro l
  induction l with
  | nil => simp [lastSlashSplit]
  | cons c cs ih =>
    intro h
    simp only [List.mem_cons, not_or] at h
    simp only [lastSlashSplit, ih h.2]
    rw [if_neg fun hc => h.1 hc.symm]

theorem lastSlashSplit_none : ∀ {l : List Char},
    lastSlashSplit l = none → '/' ∉ l := by
  intro l
  induction l with
  | nil => simp
  | cons c cs ih =>
    intro h
    cases hcs : lastSlashSplit cs with
    | some pr =>
      rcases pr with ⟨p', s'⟩
      simp only [lastSlashSplit, hcs] at h
      exact Option.noConfusion h
    | none =>
      simp only [lastSlashSplit, hcs] at h
      by_cases hc : c = '/'
      · rw [if_pos hc] at h
        cases h
      · rw [if_neg hc] at h
        simp only [List.mem_cons, not_or]
        exact ⟨fun hm => hc hm.symm, ih hcs⟩

theorem lastSlashSplit_some : ∀ {l p s : List Char},
    lastSlashSplit l = some (p, s) → l = p ++ '/' :: s ∧ '/' ∉ s := by
  intro l
  induction l with
  | nil => intro p s h; simp [lastSlashSplit] at h
  | cons c cs ih =>
    intro p s h
    cases hcs : lastSlashSplit cs with
    | some pr =>
      rcases pr with ⟨p', s'⟩
      simp only [lastSlashSplit, hcs, Option.some.injEq, Prod.mk.injEq] at h
      rcases h with ⟨hp, hs⟩
      subst hp
      subst hs
      rcases ih hcs with ⟨h1, h2⟩
      exact ⟨by rw [List.cons_append, ← h1], h2⟩
    | none =>
      simp only [lastSlashSplit, hcs] at h
      by_cases hc : c = '/'
      · rw [if_pos hc] at h
        simp only [Option.some.injEq, Prod.mk.injEq] at h
        rcases h with ⟨hp, hs⟩
        subst hp
        subst hs
        subst hc
        exact ⟨rfl, lastSlashSplit_none hcs⟩
      · rw [if_neg hc] at h
        cases h

theorem lastSlashSplit_append : ∀ {p s : List Char},
    '/' ∉ s → lastSlashSplit (p ++ '/' :: s) = some (p, s) := by
  intro p
  induction p with
  | nil =>
    intro s h
    simp only [List.nil_append, lastSlashSplit, lastSlashSplit_of_not_mem h]
    simp
  | cons c cs ih =>
    intro s h
    simp only [List.cons_append, List.append_eq, lastSlashSplit, ih h]

/-! ## Lemmas on splitParams -/

theorem splitParams_fst_le (l : List Char) : (splitParams l).1 <+: l := by
  cases hl : lastSlashSplit l with
  | some pr =>
    rcases pr with ⟨p, s⟩
    rcases lastSlashSplit_some hl with ⟨hls, hns⟩
    cases h2 : (splitAtChar ';' s).2 with
    | some s2 =>
      simp only [splitParams, hl, h2]
      refine ⟨';' :: s2, ?_⟩
      rcases splitAtChar_some h2 with ⟨hs, _⟩
      conv_rhs => rw [hls, hs]
      simp
    | none =>
      simp only [splitParams, hl, h2]
      exact List.prefix_rfl
  | none =>
    cases h2 : (splitAtChar ';' l).2 with
    | some s2 =>
      simp only [splitParams, hl, h2]
      exact splitAtChar_fst_le ';' l
    | none =>
      simp only [splitParams, hl, h2]
      exact List.prefix_rfl

theorem splitParams_idem (l : List Char) :
    splitParams (splitParams l).1 = ((splitParams l).1, []) := by
  cases hl : lastSlashSplit l with
  | some pr =>
    rcases pr with ⟨p, s⟩
    rcases lastSlashSplit_some hl with ⟨hls, hns⟩
    cases h2 : (splitAtChar ';' s).2 with
    | some s2 =>
      simp only [splitParams, hl, h2]
      rcases splitAtChar_some h2 with ⟨hs, hnotin⟩
      have hs1 : '/' ∉ (splitAtChar ';' s).1 := by
        intro hm
        exact hns (hs ▸ List.mem_append.mpr (Or.inl hm))
      simp only [splitParams, lastSlashSplit_append hs1,
        splitAtChar_of_not_mem hnotin]
    | none =>
      simp only [splitParams, hl, h2]
  | none =>
    cases h2 : (splitAtChar ';' l).2 with
    | some s2 =>
      simp only [splitParams, hl, h2]
      rcases splitAtChar_some h2 with ⟨hs, hnotin⟩
      have hs1 : '/' ∉ (splitAtChar ';' l).1 := by
        intro hm
        exact lastSlashSplit_none hl (hs ▸ List.mem_append.mpr (Or.inl hm))
      simp only [splitParams, lastSlashSplit_of_not_mem hs1,
        splitAtChar_of_not_mem hnotin]
    | none =>
      simp only [splitParams, hl, h2]

theorem splitParams_cons_slash {l : List Char} (h : splitParams l = (l, [])) :
    splitParams ('/' :: l) = ('/' :: l, []) := by
  cases hl : lastSlashSplit l with
  | some pr =>
    rcases pr with ⟨p, s⟩
    rcases lastSlashSplit_some hl with ⟨hls, hns⟩
    cases h2 : (splitAtChar ';' s).2 with
    | some s2 =>
      exfalso
      simp only [splitParams, hl, h2, Prod.mk.injEq] at h
      rcases splitAtChar_some h2 with ⟨hs, _⟩
      have hlen1 := congrArg List.length h.1
      have hlen2 := congrArg List.length hls
      have hlen3 := congrArg List.length hs
      simp only [List.length_append, List.length_cons] at hlen1 hlen2 hlen3
      omega
    | none =>
      have h1 : lastSlashSplit ('/' :: l) = some ('/' :: p, s) := by
        rw [hls, ← List.cons_append]
        exact lastSlashSplit_append hns
      simp only [splitParams, h1, h2]
  | none =>
    cases h2 : (splitAtChar ';' l).2 with
    | some s2 =>
      exfalso
      simp only [splitParams, hl, h2, Prod.mk.injEq] at h
      rcases splitAtChar_some h2 with ⟨hs, _⟩
      have hlen1 := congrArg List.length h.1
      have hlen3 := congrArg List.length hs
      simp only [List.length_append, List.length_cons] at hlen1 hlen3
      omega
    | none =>
      have h1 : lastSlashSplit ('/' :: l) = some ([], l) := by
        have h3 := lastSlashSplit_append (p := ([] : List Char))
          (s := l) (lastSlashSplit_none hl)
        simpa using h3
      simp only [splitParams, h1, h2]

/-! ## containsSub agrees with substring containment -/

theorem containsSub_iff (pat l : List Char) : containsSub pat l = true ↔ pat <:+: l := by
  induction l with
  | nil =>
    simp [containsSub, List.infix_nil, List.isEmpty_iff]
  | cons c cs ih =>
    simp only [containsSub, Bool.or_eq_true, List.isPrefixOf_iff_prefix, ih,
      List.infix_cons_iff]

/-! ## takeWhile and dropWhile helpers -/

theorem takeWhile_append_of_all {q : Char → Bool} : ∀ {n h : List Char},
    (∀ c ∈ n, q c = true) → (n ++ h).takeWhile q = n ++ h.takeWhile q := by
  intro n
  induction n with
  | nil => simp
  | cons c cs ih =>
    intro h hn
    have hc : q c = true := hn c (List.mem_cons_self c cs)
    simp only [List.cons_append, List.takeWhile_cons, hc, if_true]
    rw [ih fun d hd => hn d (List.mem_cons_of_mem c hd)]

theorem dropWhile_append_of_all {q : Char → Bool} : ∀ {n h : List Char},
    (∀ c ∈ n, q c = true) → (n ++ h).dropWhile q = h.dropWhile q := by
  intro n
  induction n with
  | nil => simp
  | cons c cs ih =>
    intro h hn
    have hc : q c = true := hn c (List.mem_cons_self c cs)
    simp only [List.cons_append, List.dropWhile_cons, hc, if_true]
    exact ih fun d hd => hn d (List.mem_cons_of_mem c hd)

theorem takeWhile_eq_nil_of_head {q : Char → Bool} {l : List Char}
    (h : ∀ c, l.head? = some c → q c = false) : l.takeWhile q = [] := by
  cases l with
  | nil => rfl
  | cons c cs =>
    have hc := h c rfl
    simp [List.takeWhile_cons, hc]

theorem dropWhile_eq_self_of_head {q : Char → Bool} {l : List Char}
    (h : ∀ c, l.head? = some c → q c = false) : l.dropWhile q = l := by
  cases l with
  | nil => rfl
  | cons c cs =>
    have hc := h c rfl
    simp [List.dropWhile_cons, hc]

theorem dropWhile_head_not {q : Char → Bool} : ∀ {l : List Char} {c : Char},
    (l.dropWhile q).head? = some c → q c = false := by
  intro l
  induction l with
  | nil => intro c h; simp at h
  | cons a as ih =>
    intro c h
    rw [List.dropWhile_cons] at h
    by_cases ha : q a = true
    · rw [if_pos ha] at h
      exact ih h
    · rw [if_neg ha] at h
      simp only [List.head?_cons, Option.some.injEq] at h
      subst h
      simpa using ha

/-! ## Sanitization lemmas -/

theorem isC0_of_badByte {c : Char} (h : isUnsafeByte c = true) : isC0OrSpace c = true := by
  simp only [isUnsafeByte, Bool.or_eq_true, beq_iff_eq] at h
  rcases h with (h | h) | h <;> subst h <;> decide

theorem sanitize_clean {u : List Char} : ∀ c ∈ sanitizeUrl u, isUnsafeByte c = false := by
  intro c hc
  rcases List.mem_filter.mp hc with ⟨_, hq⟩
  simpa using hq

theorem sanitize_head {u : List Char} {c : Char} (h : (sanitizeUrl u).head? = some c) :
    isC0OrSpace c = false := by
  unfold sanitizeUrl at h
  cases hd : u.dropWhile isC0OrSpace with
  | nil =>
    rw [hd] at h
    simp at h
  | cons d0 ds =>
    have h0 : isC0OrSpace d0 = false := dropWhile_head_not (l := u) (by rw [hd]; rfl)
    have hu : isUnsafeByte d0 = false := by
      cases hq : isUnsafeByte d0
      · rfl
      · rw [isC0_of_badByte hq] at h0
        cases h0
    rw [hd] at h
    simp only [List.filter_cons, hu, Bool.not_false, if_true, List.head?_cons,
      Option.some.injEq] at h
    subst h
    exact h0

theorem sanitize_fixed {l : List Char}
    (hclean : ∀ c ∈ l, isUnsafeByte c = false)
    (hhead : ∀ c, l.head? = some c → isC0OrSpace c = false) :
    sanitizeUrl l = l := by
  unfold sanitizeUrl
  rw [dropWhile_eq_self_of_head hhead]
  exact List.filter_eq_self.mpr fun c hc => by simpa using hclean c hc

/-! ## startsWithSlash, startsWithSlashSlash and ensureSlash lemmas -/

theorem sss_cons_slash (p : List Char) :
    startsWithSlashSlash ('/' :: p) = startsWithSlash p := by
  simp [startsWithSlashSlash, startsWithSlash]

theorem ensureSlash_eq (p : List Char) :
    ensureSlash p = p ∨ ensureSlash p = '/' :: p := by
  unfold ensureSlash
  by_cases h : (!p.isEmpty && !startsWithSlash p) = true
  · rw [if_pos h]
    exact Or.inr rfl
  · rw [if_neg h]
    exact Or.inl rfl

theorem ensureSlash_head (p : List Char) :
    ensureSlash p = [] ∨ startsWithSlash (ensureSlash p) = true := by
  unfold ensureSlash
  by_cases h : (!p.isEmpty && !startsWithSlash p) = true
  · rw [if_pos h]
    right
    simp [startsWithSlash]
  · rw [if_neg h]
    cases p with
    | nil => exact Or.inl rfl
    | cons c t =>
      right
      have h' : ¬(!startsWithSlash (c :: t)) = true := fun hh => h (by simp [hh])
      simpa using h'

theorem ensureSlash_mem {p : List Char} {c : Char} (h : c ∈ ensureSlash p) :
    c = '/' ∨ c ∈ p := by
  rcases ensureSlash_eq p with he | he <;> rw [he] at h
  · exact Or.inr h
  · rcases List.mem_cons.mp h with h | h
    · exact Or.inl h
    · exact Or.inr h

theorem ensureSlash_of_sws {p : List Char} (h : startsWithSlash p = true) :
    ensureSlash p = p := by
  unfold ensureSlash
  rw [if_neg]
  simp [h]

theorem ensureSlash_ensureSlash (p : List Char) :
    ensureSlash (ensureSlash p) = ensureSlash p := by
  rcases ensureSlash_head p with h | h
  · rw [h]
    rfl
  · exact ensureSlash_of_sws h

theorem sss_ensureSlash {p : List Char} (h : startsWithSlashSlash p = false) :
    startsWithSlashSlash (ensureSlash p) = false := by
  unfold ensureSlash
  by_cases hb : (!p.isEmpty && !startsWithSlash p) = true
  · rw [if_pos hb]
    rw [sss_cons_slash]
    cases hsw : startsWithSlash p with
    | false => rfl
    | true =>
      rw [hsw] at hb
      simp at hb
  · rw [if_neg hb]
    exact h

theorem delim_cases {c : Char} (h : isNetlocDelim c = true) :
    c = '/' ∨ c = '?' ∨ c = '#' := by
  have h2 : (c = '/' ∨ c = '?') ∨ c = '#' := by
    simpa [isNetlocDelim, beq_iff_eq] using h
  tauto

/-! ## splitScheme lemmas -/

theorem splitAtChar_fst_not_mem (t : Char) (l : List Char) : t ∉ (splitAtChar t l).1 := by
  cases h : (splitAtChar t l).2 with
  | none =>
    rw [(splitAtChar_snd_none h).1]
    exact (splitAtChar_snd_none h).2
  | some r => exact (splitAtChar_some h).2

theorem validSchemePre_mem {s : List Char} {c : Char} (hv : validSchemePre s = true)
    (hc : c ∈ s) : c.isAlpha = true ∨ isSchemeChar c = true := by
  cases s with
  | nil => cases hc
  | cons a as =>
    simp only [validSchemePre, Bool.and_eq_true, List.all_eq_true] at hv
    rcases List.mem_cons.mp hc with rfl | hm
    · exact Or.inl hv.1
    · exact Or.inr (hv.2 c hm)

theorem validSchemePre_not_colon {s : List Char} (hv : validSchemePre s = true) :
    ':' ∉ s := by
  intro hm
  rcases validSchemePre_mem hv hm with h | h
  · exact absurd h (by decide)
  · exact absurd h (by decide)

theorem validSchemePre_toLower {s : List Char} (h : validSchemePre s = true) :
    validSchemePre (s.map Char.toLower) = true := by
  cases s with
  | nil => exact h
  | cons c cs =>
    simp only [List.map_cons, validSchemePre, Bool.and_eq_true, List.all_eq_true] at h ⊢
    refine ⟨isAlpha_toLower h.1, ?_⟩
    intro x hx
    rcases List.mem_map.mp hx with ⟨y, hy, rfl⟩
    exact isSchemeChar_toLower (h.2 y hy)

theorem map_toLower_idem (s : List Char) :
    (s.map Char.toLower).map Char.toLower = s.map Char.toLower := by
  rw [List.map_map]
  refine List.map_congr_left fun c _ => ?_
  simp only [Function.comp_apply]
  exact toLower_toLower c

theorem splitScheme_of_schemeOK {s rest : List Char} (hv : validSchemePre s = true)
    (hlow : s.map Char.toLower = s) : splitScheme (s ++ ':' :: rest) = (s, rest) := by
  have hnc : ':' ∉ s := validSchemePre_not_colon hv
  simp only [splitScheme, splitAtChar_append hnc]
  rw [if_pos hv, hlow]

theorem splitScheme_not_alpha {u : List Char}
    (h : ∀ c, u.head? = some c → c.isAlpha = false) : splitScheme u = ([], u) := by
  cases h2 : (splitAtChar ':' u).2 with
  | none => simp only [splitScheme, h2]
  | some rest =>
    rcases splitAtChar_some h2 with ⟨hu, _⟩
    have hnv : ¬validSchemePre (splitAtChar ':' u).1 = true := by
      intro hv
      cases hf : (splitAtChar ':' u).1 with
      | nil =>
        rw [hf] at hv
        cases hv
      | cons c cs =>
        rw [hf] at hv hu
        simp only [validSchemePre, Bool.and_eq_true] at hv
        have hhd : u.head? = some c := by
          rw [hu]
          rfl
        have hca := hv.1
        rw [h c hhd] at hca
        cases hca
    simp only [splitScheme, h2]
    rw [if_neg hnv]

theorem splitScheme_slash {u : List Char} (h : startsWithSlash u = true) :
    splitScheme u = ([], u) := by
  apply splitScheme_not_alpha
  intro c hc
  simp only [startsWithSlash, beq_iff_eq] at h
  rw [h] at hc
  cases hc
  decide

theorem splitScheme_fst_nil {u : List Char} (h : (splitScheme u).1 = []) :
    splitScheme u = ([], u) := by
  cases h2 : (splitAtChar ':' u).2 with
  | none => simp only [splitScheme, h2]
  | some rest =>
    by_cases hv : validSchemePre (splitAtChar ':' u).1 = true
    · exfalso
      simp only [splitScheme, h2, if_pos hv] at h
      cases hf : (splitAtChar ':' u).1 with
      | nil =>
        rw [hf] at hv
        cases hv
      | cons a as =>
        rw [hf] at h
        simp at h
    · simp only [splitScheme, h2, if_neg hv]

theorem head_of_le {p l : List Char} (h : p <+: l) (hp : p ≠ []) :
    p.head? = l.head? := by
  rcases h with ⟨t, rfl⟩
  cases p with
  | nil => exact absurd rfl hp
  | cons a as => rfl

theorem splitScheme_of_le {u p : List Char} (hu : splitScheme u = ([], u))
    (hp : p <+: u) : splitScheme p = ([], p) := by
  cases h2 : (splitAtChar ':' p).2 with
  | none => simp only [splitScheme, h2]
  | some rest =>
    rcases splitAtChar_some h2 with ⟨hdec, hnc⟩
    rcases hp with ⟨t, ht⟩
    set s1 := (splitAtChar ':' p).1 with hs1def
    have hu2 : u = s1 ++ ':' :: (rest ++ t) := by
      rw [← ht]
      conv_lhs => rw [hdec]
      simp [List.append_assoc]
    have h3 : splitAtChar ':' u = (s1, some (rest ++ t)) := by
      rw [hu2]
      exact splitAtChar_append hnc
    have hnv : ¬validSchemePre s1 = true := by
      intro hv
      have hext : splitScheme u = (s1.map Char.toLower, rest ++ t) := by
        simp only [splitScheme, h3]
        rw [if_pos hv]
      rw [hu] at hext
      have h4 := congrArg Prod.fst hext
      cases hs1 : s1 with
      | nil =>
        rw [hs1] at hv
        cases hv
      | cons a as =>
        rw [hs1] at h4
        simp at h4
    simp only [splitScheme, h2]
    rw [if_neg hnv]

/-! ## Invariants of urlparseCore -/

theorem parse_scheme_eq (u : List Char) :
    (urlparseCore u).scheme = (splitScheme u).1 := rfl

theorem parse_netloc_eq (u : List Char) :
    (urlparseCore u).netloc = (splitNetloc (splitScheme u).2).1 := rfl

theorem parse_path_eq (u : List Char) :
    (urlparseCore u).path =
      (if (splitScheme u).1 ∈ usesParams
       then splitParams
         (splitAtChar '?' (splitAtChar '#' (splitNetloc (splitScheme u).2).2).1).1
       else
         ((splitAtChar '?' (splitAtChar '#' (splitNetloc (splitScheme u).2).2).1).1,
          [])).1 := rfl

theorem parse_scheme_inv (u : List Char) :
    (urlparseCore u).scheme = [] ∨
      (validSchemePre (urlparseCore u).scheme = true ∧
        (urlparseCore u).scheme.map Char.toLower = (urlparseCore u).scheme) := by
  rw [parse_scheme_eq]
  cases h2 : (splitAtChar ':' u).2 with
  | none =>
    simp only [splitScheme, h2]
    left
    trivial
  | some rest =>
    by_cases hv : validSchemePre (splitAtChar ':' u).1 = true
    · simp only [splitScheme, h2, if_pos hv]
      exact Or.inr ⟨validSchemePre_toLower hv, map_toLower_idem _⟩
    · simp only [splitScheme, h2, if_neg hv]
      left
      trivial

theorem parse_netloc_inv (u : List Char) :
    ∀ c ∈ (urlparseCore u).netloc, isNetlocDelim c = false := by
  rw [parse_netloc_eq]
  unfold splitNetloc
  by_cases hss : startsWithSlashSlash (splitScheme u).2 = true
  · rw [if_pos hss]
    intro c hc
    simpa using List.mem_takeWhile_imp hc
  · rw [if_neg hss]
    intro c hc
    simp at hc

theorem splitScheme_snd_subset (u : List Char) : ∀ c ∈ (splitScheme u).2, c ∈ u := by
  cases h2 : (splitAtChar ':' u).2 with
  | none =>
    simp only [splitScheme, h2]
    exact fun c hc => hc
  | some rest =>
    by_cases hv : validSchemePre (splitAtChar ':' u).1 = true
    · simp only [splitScheme, h2, if_pos hv]
      intro c hc
      rw [(splitAtChar_some h2).1]
      exact List.mem_append.mpr (Or.inr (List.mem_cons_of_mem _ hc))
    · simp only [splitScheme, h2, if_neg hv]
      exact fun c hc => hc

theorem splitNetloc_snd_subset (r : List Char) : ∀ c ∈ (splitNetloc r).2, c ∈ r := by
  unfold splitNetloc
  by_cases hss : startsWithSlashSlash r = true
  · rw [if_pos hss]
    exact fun c hc => ((List.dropWhile_sublist _).trans (List.drop_sublist _ _)).subset hc
  · rw [if_neg hss]
    exact fun c hc => hc

theorem parse_netloc_subset (u : List Char) :
    ∀ c ∈ (urlparseCore u).netloc, c ∈ u := by
  rw [parse_netloc_eq]
  unfold splitNetloc
  by_cases hss : startsWithSlashSlash (splitScheme u).2 = true
  · rw [if_pos hss]
    intro c hc
    exact splitScheme_snd_subset u c
      (((List.takeWhile_sublist _).trans (List.drop_sublist _ _)).subset hc)
  · rw [if_neg hss]
    intro c hc
    simp at hc

theorem splitNetloc_snd_head {r : List Char} (hss : startsWithSlashSlash r = true) :
    ∀ c, ((splitNetloc r).2).head? = some c → isNetlocDelim c = true := by
  unfold splitNetloc
  rw [if_pos hss]
  intro c hc
  simpa using dropWhile_head_not hc

theorem parse_path_le (u : List Char) :
    (urlparseCore u).path <+:
      (splitAtChar '?' (splitAtChar '#' (splitNetloc (splitScheme u).2).2).1).1 := by
  rw [parse_path_eq]
  by_cases hm : (splitScheme u).1 ∈ usesParams
  · rw [if_pos hm]
    exact splitParams_fst_le _
  · rw [if_neg hm]

theorem parse_path_no_qf (u : List Char) :
    '?' ∉ (urlparseCore u).path ∧ '#' ∉ (urlparseCore u).path := by
  have hle := parse_path_le u
  constructor
  · intro hm
    exact splitAtChar_fst_not_mem '?' _ (hle.subset hm)
  · intro hm
    have h1 : '#' ∈ (splitAtChar '#' (splitNetloc (splitScheme u).2).2).1 :=
      (splitAtChar_fst_le '?' _).subset (hle.subset hm)
    exact splitAtChar_fst_not_mem '#' _ h1

theorem parse_path_subset (u : List Char) : ∀ c ∈ (urlparseCore u).path, c ∈ u := by
  intro c hc
  have h1 := (parse_path_le u).subset hc
  have h2 := (splitAtChar_fst_le '?' _).subset h1
  have h3 := (splitAtChar_fst_le '#' _).subset h2
  exact splitScheme_snd_subset u _ (splitNetloc_snd_subset _ _ h3)

theorem parse_params_inv (u : List Char)
    (hm : (urlparseCore u).scheme ∈ usesParams) :
    splitParams (urlparseCore u).path = ((urlparseCore u).path, []) := by
  rw [parse_scheme_eq] at hm
  rw [parse_path_eq, if_pos hm]
  exact splitParams_idem _

theorem parse_path_start (u : List Char)
    (hss : startsWithSlashSlash (splitScheme u).2 = true) :
    (urlparseCore u).path = [] ∨ startsWithSlash (urlparseCore u).path = true := by
  cases hp : (urlparseCore u).path with
  | nil => exact Or.inl rfl
  | cons a as =>
    right
    have hle : (urlparseCore u).path <+: (splitNetloc (splitScheme u).2).2 :=
      (parse_path_le u).trans
        ((splitAtChar_fst_le '?' _).trans (splitAtChar_fst_le '#' _))
    have hhead := head_of_le hle (by rw [hp]; simp)
    rw [hp] at hhead
    have hdelim := splitNetloc_snd_head hss a hhead.symm
    have hmem : a ∈ (urlparseCore u).path := by
      rw [hp]
      exact List.mem_cons_self _ _
    rcases delim_cases hdelim with rfl | rfl | rfl
    · simp [startsWithSlash]
    · exact absurd hmem (parse_path_no_qf u).1
    · exact absurd hmem (parse_path_no_qf u).2

theorem parse_noscheme (u : List Char)
    (hs : (urlparseCore u).scheme = []) :
    splitScheme (urlparseCore u).path = ([], (urlparseCore u).path) := by
  by_cases hbr : startsWithSlashSlash (splitScheme u).2 = true
  · rcases parse_path_start u hbr with hp | hp
    · rw [hp]
      simp [splitScheme, splitAtChar]
    · exact splitScheme_slash hp
  · have hu : splitScheme u = ([], u) := splitScheme_fst_nil (by rw [← parse_scheme_eq]; exact hs)
    have hr2 : (splitNetloc (splitScheme u).2).2 = (splitScheme u).2 := by
      unfold splitNetloc
      rw [if_neg hbr]
    have hle : (urlparseCore u).path <+: u := by
      have h1 := (parse_path_le u).trans
        ((splitAtChar_fst_le '?' _).trans (splitAtChar_fst_le '#' _))
      rw [hr2, hu] at h1
      exact h1
    exact splitScheme_of_le hu hle

theorem parse_path_head_strip (u : List Char)
    (hs : (urlparseCore (sanitizeUrl u)).scheme = []) :
    ∀ c, ((urlparseCore (sanitizeUrl u)).path).head? = some c → isC0OrSpace c = false := by
  intro c hc
  by_cases hbr : startsWithSlashSlash (splitScheme (sanitizeUrl u)).2 = true
  · rcases parse_path_start _ hbr with hp | hp
    · rw [hp] at hc
      simp at hc
    · simp only [startsWithSlash, beq_iff_eq] at hp
      rw [hp] at hc
      cases hc
      decide
  · have hu : splitScheme (sanitizeUrl u) = ([], sanitizeUrl u) :=
      splitScheme_fst_nil (by rw [← parse_scheme_eq]; exact hs)
    have hr2 : (splitNetloc (splitScheme (sanitizeUrl u)).2).2
        = (splitScheme (sanitizeUrl u)).2 := by
      unfold splitNetloc
      rw [if_neg hbr]
    have hle : (urlparseCore (sanitizeUrl u)).path <+: sanitizeUrl u := by
      have h1 := (parse_path_le (sanitizeUrl u)).trans
        ((splitAtChar_fst_le '?' _).trans (splitAtChar_fst_le '#' _))
      rw [hr2, hu] at h1
      exact h1
    have hne : (urlparseCore (sanitizeUrl u)).path ≠ [] := by
      intro hnil
      rw [hnil] at hc
      cases hc
    have hh := head_of_le hle hne
    rw [hc] at hh
    exact sanitize_head hh.symm

/-! ## Round trip: reassembled normal forms are fixed points of parsing -/

theorem sws_cons_slash (t : List Char) : startsWithSlash ('/' :: t) = true := by
  simp [startsWithSlash]

theorem urlunsplit_pos {s n p : List Char}
    (hB : (!n.isEmpty || (!s.isEmpty && decide (s ∈ usesNetloc) &&
      !startsWithSlashSlash p)) = true) :
    urlunsplit s n p [] [] =
      (if !s.isEmpty then s ++ ':' :: ('/' :: '/' :: (n ++ ensureSlash p))
       else '/' :: '/' :: (n ++ ensureSlash p)) := by
  simp only [urlunsplit, hB, if_true, List.isEmpty_nil, Bool.not_true, if_false]
  simp

theorem urlunsplit_neg {s n p : List Char}
    (hB : (!n.isEmpty || (!s.isEmpty && decide (s ∈ usesNetloc) &&
      !startsWithSlashSlash p)) = false) :
    urlunsplit s n p [] [] = (if !s.isEmpty then s ++ ':' :: p else p) := by
  simp only [urlunsplit, hB, if_false, List.isEmpty_nil, Bool.not_true]
  simp

theorem normalizeUrl_eq (u : List Char) :
    normalizeUrl u =
      urlunsplit (urlparseCore (sanitizeUrl u)).scheme
        (urlparseCore (sanitizeUrl u)).netloc
        (urlparseCore (sanitizeUrl u)).path [] [] := rfl

theorem head_slash_pred {q : List Char} (hq : startsWithSlash q = true) :
    ∀ c, q.head? = some c → (!isNetlocDelim c) = false := by
  intro c hc
  simp only [startsWithSlash, beq_iff_eq] at hq
  rw [hq] at hc
  cases hc
  decide

theorem splitNetloc_marker {n q : List Char}
    (Hn : ∀ c ∈ n, isNetlocDelim c = false)
    (hq : q = [] ∨ startsWithSlash q = true) :
    splitNetloc ('/' :: '/' :: (n ++ q)) = (n, q) := by
  unfold splitNetloc
  rw [if_pos (by simp [startsWithSlashSlash])]
  simp only [List.drop_succ_cons, List.drop_zero]
  rw [takeWhile_append_of_all (fun c hc => by simp [Hn c hc]),
    dropWhile_append_of_all (fun c hc => by simp [Hn c hc])]
  rcases hq with rfl | hq
  · simp
  · rw [takeWhile_eq_nil_of_head (head_slash_pred hq),
      dropWhile_eq_self_of_head (head_slash_pred hq)]
    simp

theorem hash_not_mem_ensure {p : List Char} (hp : '#' ∉ p) : '#' ∉ ensureSlash p := by
  intro hm
  rcases ensureSlash_mem hm with h | h
  · exact absurd h (by decide)
  · exact hp h

theorem quest_not_mem_ensure {p : List Char} (hp : '?' ∉ p) : '?' ∉ ensureSlash p := by
  intro hm
  rcases ensureSlash_mem hm with h | h
  · exact absurd h (by decide)
  · exact hp h

theorem splitParams_ensure {p : List Char} (h : splitParams p = (p, [])) :
    splitParams (ensureSlash p) = (ensureSlash p, []) := by
  rcases ensureSlash_eq p with he | he <;> rw [he]
  · exact h
  · exact splitParams_cons_slash h

theorem parseCore_marker {s n p : List Char}
    (Hs : s = [] ∨ (validSchemePre s = true ∧ s.map Char.toLower = s))
    (Hn : ∀ c ∈ n, isNetlocDelim c = false)
    (Hp : '?' ∉ p ∧ '#' ∉ p)
    (Hpp : s ∈ usesParams → splitParams p = (p, [])) :
    urlparseCore
      (if !s.isEmpty then s ++ ':' :: ('/' :: '/' :: (n ++ ensureSlash p))
       else '/' :: '/' :: (n ++ ensureSlash p)) = ⟨s, n, ensureSlash p, [], [], []⟩ := by
  have hsch : splitScheme
      (if !s.isEmpty then s ++ ':' :: ('/' :: '/' :: (n ++ ensureSlash p))
       else '/' :: '/' :: (n ++ ensureSlash p))
      = (s, '/' :: '/' :: (n ++ ensureSlash p)) := by
    cases s with
    | nil =>
      simp only [List.isEmpty_nil, Bool.not_true, if_false]
      exact splitScheme_slash (sws_cons_slash _)
    | cons a t =>
      rcases Hs with h | ⟨hv, hlow⟩
      · exact absurd h (by simp)
      · simp only [List.isEmpty_cons, Bool.not_false, if_true]
        exact splitScheme_of_schemeOK hv hlow
  have hnet : splitNetloc ('/' :: '/' :: (n ++ ensureSlash p)) = (n, ensureSlash p) :=
    splitNetloc_marker Hn (ensureSlash_head p)
  have hfr : splitAtChar '#' (ensureSlash p) = (ensureSlash p, none) :=
    splitAtChar_of_not_mem (hash_not_mem_ensure Hp.2)
  have hqu : splitAtChar '?' (ensureSlash p) = (ensureSlash p, none) :=
    splitAtChar_of_not_mem (quest_not_mem_ensure Hp.1)
  simp only [urlparseCore, hsch, hnet, splitFragment, splitQuery, hfr, hqu,
    Option.getD_none]
  by_cases hm : s ∈ usesParams
  · rw [if_pos hm, splitParams_ensure (Hpp hm)]
  · rw [if_neg hm]

theorem parseCore_plain {s p : List Char}
    (Hs : s = [] ∨ (validSchemePre s = true ∧ s.map Char.toLower = s))
    (Hp : '?' ∉ p ∧ '#' ∉ p)
    (Hpp : s ∈ usesParams → splitParams p = (p, []))
    (Hsw : startsWithSlashSlash p = false)
    (Hns : s = [] → splitScheme p = ([], p)) :
    urlparseCore (if !s.isEmpty then s ++ ':' :: p else p) = ⟨s, [], p, [], [], []⟩ := by
  have hsch : splitScheme (if !s.isEmpty then s ++ ':' :: p else p) = (s, p) := by
    cases s with
    | nil =>
      simp only [List.isEmpty_nil, Bool.not_true, if_false]
      exact Hns rfl
    | cons a t =>
      rcases Hs with h | ⟨hv, hlow⟩
      · exact absurd h (by simp)
      · simp only [List.isEmpty_cons, Bool.not_false, if_true]
        exact splitScheme_of_schemeOK hv hlow
  have hnet : splitNetloc p = ([], p) := by
    unfold splitNetloc
    rw [if_neg (by rw [Hsw]; simp)]
  have hfr : splitAtChar '#' p = (p, none) := splitAtChar_of_not_mem Hp.2
  have hqu : splitAtChar '?' p = (p, none) := splitAtChar_of_not_mem Hp.1
  simp only [urlparseCore, hsch, hnet, splitFragment, splitQuery, hfr, hqu,
    Option.getD_none]
  by_cases hm : s ∈ usesParams
  · rw [if_pos hm, Hpp hm]
  · rw [if_neg hm]

theorem normalize_fixed {s n p : List Char}
    (Hs : s = [] ∨ (validSchemePre s = true ∧ s.map Char.toLower = s))
    (Hn : ∀ c ∈ n, isNetlocDelim c = false)
    (Hp : '?' ∉ p ∧ '#' ∉ p)
    (Hpp : s ∈ usesParams → splitParams p = (p, []))
    (Hns : s = [] → n = [] → startsWithSlashSlash p = false →
      splitScheme p = ([], p))
    (Hgood : n ≠ [] ∨ startsWithSlashSlash p = false)
    (Hsan : sanitizeUrl (urlunsplit s n p [] []) = urlunsplit s n p [] []) :
    normalizeUrl (urlunsplit s n p [] []) = urlunsplit s n p [] [] := by
  rw [normalizeUrl_eq, Hsan]
  cases hB : (!n.isEmpty || (!s.isEmpty && decide (s ∈ usesNetloc) &&
      !startsWithSlashSlash p)) with
  | true =>
    rw [urlunsplit_pos hB, parseCore_marker Hs Hn Hp Hpp]
    have hB2 : (!n.isEmpty || (!s.isEmpty && decide (s ∈ usesNetloc) &&
        !startsWithSlashSlash (ensureSlash p))) = true := by
      cases hne : n.isEmpty with
      | false => simp [hne]
      | true =>
        rw [hne] at hB
        simp only [Bool.not_true, Bool.false_or] at hB
        have h3 : startsWithSlashSlash p = false := by
          cases hsp : startsWithSlashSlash p with
          | false => rfl
          | true =>
            rw [hsp] at hB
            simp at hB
        simp only [Bool.not_true, Bool.false_or]
        rw [sss_ensureSlash h3]
        rw [h3] at hB
        exact hB
    rw [urlunsplit_pos hB2, ensureSlash_ensureSlash]
  | false =>
    rw [urlunsplit_neg hB]
    have hn0 : n = [] := by
      cases hne : n.isEmpty with
      | true => exact List.isEmpty_iff.mp hne
      | false =>
        rw [hne] at hB
        simp at hB
    have hsw : startsWithSlashSlash p = false := by
      rcases Hgood with h | h
      · exact absurd hn0 h
      · exact h
    rw [parseCore_plain Hs Hp Hpp hsw (fun hs0 => Hns hs0 hn0 hsw)]
    rw [hn0] at hB
    rw [urlunsplit_neg hB]

/-! ## Character content of reassembled URLs -/

theorem alpha_scheme_not_unsafe {c : Char}
    (h : c.isAlpha = true ∨ isSchemeChar c = true) : isUnsafeByte c = false := by
  cases hq : isUnsafeByte c
  · rfl
  · exfalso
    simp only [isUnsafeByte, Bool.or_eq_true, beq_iff_eq] at hq
    rcases hq with (rfl | rfl) | rfl <;> rcases h with h | h <;> revert h <;> decide

theorem alpha_not_C0 {c : Char} (h : c.isAlpha = true) : isC0OrSpace c = false := by
  have h2 := isAlpha_toNat_gt h
  simp only [isC0OrSpace, decide_eq_false_iff_not]
  omega

theorem validSchemePre_head {s : List Char} {c : Char} (hv : validSchemePre s = true)
    (hc : s.head? = some c) : c.isAlpha = true := by
  cases s with
  | nil => cases hc
  | cons a t =>
    cases hc
    simp only [validSchemePre, Bool.and_eq_true] at hv
    exact hv.1

theorem urlunsplit_mem {s n p : List Char} {c : Char}
    (hc : c ∈ urlunsplit s n p [] []) :
    c ∈ s ∨ c ∈ n ∨ c ∈ p ∨ c = ':' ∨ c = '/' := by
  cases hB : (!n.isEmpty || (!s.isEmpty && decide (s ∈ usesNetloc) &&
      !startsWithSlashSlash p)) with
  | true =>
    rw [urlunsplit_pos hB] at hc
    by_cases hs : (!s.isEmpty) = true
    · rw [if_pos hs] at hc
      simp only [List.mem_append, List.mem_cons] at hc
      rcases hc with hc | hc | hc | hc | hc | hc
      · exact Or.inl hc
      · exact Or.inr (Or.inr (Or.inr (Or.inl hc)))
      · exact Or.inr (Or.inr (Or.inr (Or.inr hc)))
      · exact Or.inr (Or.inr (Or.inr (Or.inr hc)))
      · exact Or.inr (Or.inl hc)
      · rcases ensureSlash_mem hc with hc | hc
        · exact Or.inr (Or.inr (Or.inr (Or.inr hc)))
        · exact Or.inr (Or.inr (Or.inl hc))
    · rw [if_neg hs] at hc
      simp only [List.mem_append, List.mem_cons] at hc
      rcases hc with hc | hc | hc | hc
      · exact Or.inr (Or.inr (Or.inr (Or.inr hc)))
      · exact Or.inr (Or.inr (Or.inr (Or.inr hc)))
      · exact Or.inr (Or.inl hc)
      · rcases ensureSlash_mem hc with hc | hc
        · exact Or.inr (Or.inr (Or.inr (Or.inr hc)))
        · exact Or.inr (Or.inr (Or.inl hc))
  | false =>
    rw [urlunsplit_neg hB] at hc
    by_cases hs : (!s.isEmpty) = true
    · rw [if_pos hs] at hc
      simp only [List.mem_append, List.mem_cons] at hc
      rcases hc with hc | hc | hc
      · exact Or.inl hc
      · exact Or.inr (Or.inr (Or.inr (Or.inl hc)))
      · exact Or.inr (Or.inr (Or.inl hc))
    · rw [if_neg hs] at hc
      exact Or.inr (Or.inr (Or.inl hc))

theorem urlunsplit_head {s n p : List Char} {c : Char}
    (hc : (urlunsplit s n p [] []).head? = some c) :
    s.head? = some c ∨ c = '/' ∨ (s = [] ∧ n = [] ∧ p.head? = some c) := by
  cases hB : (!n.isEmpty || (!s.isEmpty && decide (s ∈ usesNetloc) &&
      !startsWithSlashSlash p)) with
  | true =>
    rw [urlunsplit_pos hB] at hc
    cases s with
    | nil =>
      simp only [List.isEmpty_nil, Bool.not_true] at hc
      rw [if_neg (by simp)] at hc
      simp only [List.head?_cons, Option.some.injEq] at hc
      exact Or.inr (Or.inl hc.symm)
    | cons a t =>
      simp only [List.isEmpty_cons, Bool.not_false, if_true, List.cons_append,
        List.head?_cons, Option.some.injEq] at hc
      exact Or.inl (by rw [hc]; rfl)
  | false =>
    rw [urlunsplit_neg hB] at hc
    have hn0 : n = [] := by
      cases hne : n.isEmpty with
      | true => exact List.isEmpty_iff.mp hne
      | false =>
        rw [hne] at hB
        simp at hB
    cases s with
    | nil =>
      simp only [List.isEmpty_nil, Bool.not_true, if_false] at hc
      exact Or.inr (Or.inr ⟨rfl, hn0, hc⟩)
    | cons a t =>
      simp only [List.isEmpty_cons, Bool.not_false, if_true, List.cons_append,
        List.head?_cons, Option.some.injEq] at hc
      exact Or.inl (by rw [hc]; rfl)

/-! ## Normalization output facts -/

theorem normalize_no_query_frag (u : List Char) :
    '?' ∉ normalizeUrl u ∧ '#' ∉ normalizeUrl u := by
  rw [normalizeUrl_eq]
  constructor <;> intro hm <;>
    rcases urlunsplit_mem hm with hc | hc | hc | hc | hc
  · rcases parse_scheme_inv (sanitizeUrl u) with h0 | ⟨hv, _⟩
    · rw [h0] at hc
      cases hc
    · rcases validSchemePre_mem hv hc with h | h
      · exact absurd h (by decide)
      · exact absurd h (by decide)
  · have := parse_netloc_inv (sanitizeUrl u) _ hc
    exact absurd this (by decide)
  · exact (parse_path_no_qf (sanitizeUrl u)).1 hc
  · exact absurd hc (by decide)
  · exact absurd hc (by decide)
  · rcases parse_scheme_inv (sanitizeUrl u) with h0 | ⟨hv, _⟩
    · rw [h0] at hc
      cases hc
    · rcases validSchemePre_mem hv hc with h | h
      · exact absurd h (by decide)
      · exact absurd h (by decide)
  · have := parse_netloc_inv (sanitizeUrl u) _ hc
    exact absurd this (by decide)
  · exact (parse_path_no_qf (sanitizeUrl u)).2 hc
  · exact absurd hc (by decide)
  · exact absurd hc (by decide)

theorem normalize_idem_cond (u : List Char)
    (h : (urlparse u).netloc ≠ [] ∨
      startsWithSlashSlash (urlparse u).path = false) :
    normalizeUrl (normalizeUrl u) = normalizeUrl u := by
  conv_lhs => rw [normalizeUrl_eq u]
  conv_rhs => rw [normalizeUrl_eq u]
  apply normalize_fixed
  · exact parse_scheme_inv (sanitizeUrl u)
  · exact parse_netloc_inv (sanitizeUrl u)
  · exact parse_path_no_qf (sanitizeUrl u)
  · exact fun hm => parse_params_inv (sanitizeUrl u) hm
  · intro hs0 _ _
    exact parse_noscheme (sanitizeUrl u) hs0
  · exact h
  · apply sanitize_fixed
    · intro c hc
      rcases urlunsplit_mem hc with hcs | hcn | hcp | rfl | rfl
      · rcases parse_scheme_inv (sanitizeUrl u) with h0 | ⟨hv, _⟩
        · rw [h0] at hcs
          cases hcs
        · exact alpha_scheme_not_unsafe (validSchemePre_mem hv hcs)
      · exact sanitize_clean c (parse_netloc_subset (sanitizeUrl u) c hcn)
      · exact sanitize_clean c (parse_path_subset (sanitizeUrl u) c hcp)
      · decide
      · decide
    · intro c hc
      rcases urlunsplit_head hc with hh | rfl | ⟨hs0, _, hp⟩
      · rcases parse_scheme_inv (sanitizeUrl u) with h0 | ⟨hv, _⟩
        · rw [h0] at hh
          cases hh
        · exact alpha_not_C0 (validSchemePre_head hv hh)
      · decide
      · exact parse_path_head_strip u hs0 c hp

/-! ## Pipeline lemmas -/

theorem containsSub_eq_false_iff (pat l : List Char) :
    containsSub pat l = false ↔ ¬pat <:+: l := by
  rw [← containsSub_iff]
  cases containsSub pat l <;> simp

theorem scanResults_cons_emit {name state : List Char} {idx : Nat}
    {seen : List (List Char)} {r : RawResult} {rs : List RawResult}
    (ha : acceptLink (r.link.getD []) = true)
    (hs : normalizeUrl (r.link.getD []) ∉ seen) :
    scanResults name state idx seen (r :: rs) =
      { input_name := name, input_state := state, google_rank := idx,
        linkedin_url := normalizeUrl (r.link.getD []),
        meta_title := r.title.getD [],
        meta_description := r.snippet.getD [] }
        :: scanResults name state (idx + 1)
            (normalizeUrl (r.link.getD []) :: seen) rs := by
  simp only [scanResults]
  rw [if_pos ha, if_neg hs]

theorem scanResults_cons_dup {name state : List Char} {idx : Nat}
    {seen : List (List Char)} {r : RawResult} {rs : List RawResult}
    (ha : acceptLink (r.link.getD []) = true)
    (hs : normalizeUrl (r.link.getD []) ∈ seen) :
    scanResults name state idx seen (r :: rs) =
      scanResults name state (idx + 1) seen rs := by
  simp only [scanResults]
  rw [if_pos ha, if_pos hs]

theorem scanResults_cons_reject {name state : List Char} {idx : Nat}
    {seen : List (List Char)} {r : RawResult} {rs : List RawResult}
    (ha : acceptLink (r.link.getD []) = false) :
    scanResults name state idx seen (r :: rs) =
      scanResults name state (idx + 1) seen rs := by
  simp only [scanResults]
  rw [if_neg (by simp [ha])]

theorem scanResults_nodup (name state : List Char) :
    ∀ (rs : List RawResult) (idx : Nat) (seen : List (List Char)),
      ((scanResults name state idx seen rs).map (fun r => r.linkedin_url)).Nodup ∧
      ∀ url ∈ (scanResults name state idx seen rs).map (fun r => r.linkedin_url),
        url ∉ seen := by
  intro rs
  induction rs with
  | nil =>
    intro idx seen
    simp [scanResults]
  | cons r rest ih =>
    intro idx seen
    cases ha : acceptLink (r.link.getD []) with
    | false =>
      rw [scanResults_cons_reject ha]
      exact ih _ _
    | true =>
      by_cases hs : normalizeUrl (r.link.getD []) ∈ seen
      · rw [scanResults_cons_dup ha hs]
        exact ih _ _
      · rw [scanResults_cons_emit ha hs]
        rcases ih (idx + 1) (normalizeUrl (r.link.getD []) :: seen) with ⟨hnd, hnotin⟩
        constructor
        · simp only [List.map_cons, List.nodup_cons]
          refine ⟨?_, hnd⟩
          intro hmem
          exact hnotin _ hmem (List.mem_cons_self _ _)
        · intro url hmem
          simp only [List.map_cons, List.mem_cons] at hmem
          rcases hmem with rfl | hmem
          · exact hs
          · intro hseen
            exact hnotin url hmem (List.mem_cons_of_mem _ hseen)

theorem scanResults_mem (name state : List Char) :
    ∀ (rs : List RawResult) (idx : Nat) (seen : List (List Char))
      (rec : ResultRecord), rec ∈ scanResults name state idx seen rs →
      ∃ j r, rs[j]? = some r ∧ rec.google_rank = idx + j ∧
        acceptLink (r.link.getD []) = true ∧
        rec.linkedin_url = normalizeUrl (r.link.getD []) ∧
        rec.meta_title = r.title.getD [] ∧
        rec.meta_description = r.snippet.getD [] ∧
        rec.input_name = name ∧ rec.input_state = state := by
  intro rs
  induction rs with
  | nil =>
    intro idx seen rec h
    simp [scanResults] at h
  | cons r rest ih =>
    intro idx seen rec h
    cases ha : acceptLink (r.link.getD []) with
    | false =>
      rw [scanResults_cons_reject ha] at h
      rcases ih _ _ _ h with ⟨j, r', hj, hrank, hrest⟩
      exact ⟨j + 1, r', by simpa using hj, by omega, hrest⟩
    | true =>
      by_cases hs : normalizeUrl (r.link.getD []) ∈ seen
      · rw [scanResults_cons_dup ha hs] at h
        rcases ih _ _ _ h with ⟨j, r', hj, hrank, hrest⟩
        exact ⟨j + 1, r', by simpa using hj, by omega, hrest⟩
      · rw [scanResults_cons_emit ha hs] at h
        rcases List.mem_cons.mp h with rfl | h
        · exact ⟨0, r, by simp, by simp, ha, rfl, rfl, rfl, rfl, rfl⟩
        · rcases ih _ _ _ h with ⟨j, r', hj, hrank, hrest⟩
          exact ⟨j + 1, r', by simpa using hj, by omega, hrest⟩

theorem demoProcessPerson_empty {name state : List Char} {resp : SerperResponse}
    (h : demoScan name state 1 (resp.organic.getD []) = []) :
    demoProcessPerson name state (.success resp) = [demoPlaceholder name state] := by
  simp only [demoProcessPerson, h]
  rfl

theorem demoScan_cons_reject {name state : List Char} {rank : Nat}
    {r : RawResult} {rs : List RawResult}
    (ha : demoAcceptLink (r.link.getD []) = false) :
    demoScan name state rank (r :: rs) = demoScan name state (rank + 1) rs := by
  simp only [demoScan]
  rw [if_neg (by simp [ha])]

theorem acceptLink_iff (u : List Char) :
    acceptLink u = true ↔
      (profileMarker <:+: u ∧ ∀ x ∈ excludedSegments, ¬x <:+: u) := by
  simp only [acceptLink, Bool.and_eq_true, containsSub_iff, Bool.not_eq_true',
    List.any_eq_false, containsSub_eq_false_iff]

theorem demoAcceptLink_iff (u : List Char) :
    demoAcceptLink u = true ↔
      (profileMarker <:+: u ∧ ∀ x ∈ demoExcludedSegments, ¬x <:+: u) := by
  simp only [demoAcceptLink, Bool.and_eq_true, containsSub_iff, Bool.not_eq_true',
    List.any_eq_false, containsSub_eq_false_iff]

/-! ## Claims -/

/-- Claim C1 counterexample: in search_cpa_profiles, a Target whose request
succeeds but whose filtered and deduplicated result set is empty contributes
zero rows to the output, not exactly one placeholder row. -/
theorem claim_C1_counterexample :
    searchCpaProfiles
      [(⟨("John Doe").toList, ("Maine").toList⟩, .success ⟨some []⟩)] = [] ∧
    (searchCpaProfiles
      [(⟨("John Doe").toList, ("Maine").toList⟩, .success ⟨some []⟩)]).length ≠ 1 := by
  decide

/-- Claim C1 (amended): in demo_app's search_profiles, a person whose request
succeeds with an empty filtered row set yields exactly one placeholder row,
with the sentinel rank "-" (modelled as none), the sentinel url "-", and the
fixed title "No Profile Found"; in linkedin_finder's search_cpa_profiles such
a Target yields no rows at all. -/
theorem claim_C1_placeholder (name state : List Char) (resp : SerperResponse)
    (hd : demoScan name state 1 (resp.organic.getD []) = [])
    (t : Target) (resp2 : SerperResponse)
    (hf : scanResults t.name t.state 1 [] (resp2.organic.getD []) = []) :
    demoProcessPerson name state (.success resp) =
      [{ input_name := name, input_state := state, googleRank := none,
         title := some (("No Profile Found").toList),
         snippet := some (("-").toList), linkedinUrl := ("-").toList }] ∧
    processTarget t (.success resp2) = [] := by
  exact ⟨demoProcessPerson_empty hd, hf⟩

/-- Claim C1 witness: concrete instantiation of the amended claim. -/
theorem claim_C1_witness :
    demoScan (("Jane").toList) (("Texas").toList) 1
      ((⟨some []⟩ : SerperResponse).organic.getD []) = [] ∧
    scanResults (("John Doe").toList) (("Maine").toList) 1 []
      ((⟨none⟩ : SerperResponse).organic.getD []) = [] ∧
    (demoProcessPerson (("Jane").toList) (("Texas").toList) (.success ⟨some []⟩) =
      [{ input_name := ("Jane").toList, input_state := ("Texas").toList,
         googleRank := none, title := some (("No Profile Found").toList),
         snippet := some (("-").toList), linkedinUrl := ("-").toList }] ∧
     processTarget ⟨("John Doe").toList, ("Maine").toList⟩ (.success ⟨none⟩) = []) := by
  refine ⟨by decide, by decide,
    claim_C1_placeholder (("Jane").toList) (("Texas").toList) ⟨some []⟩ (by decide)
      ⟨("John Doe").toList, ("Maine").toList⟩ ⟨none⟩ (by decide)⟩

/-- Claim C2 counterexample: demo_app's filter (line 68) checks only three
excluded segments, so it accepts a link that contains the excluded segment
"/school/"; this refutes the five-segment iff for that cited filter. -/
theorem claim_C2_counterexample :
    demoAcceptLink (("https://www.linkedin.com/in/x/school/y").toList) = true ∧
    containsSub (("/school/").toList)
      (("https://www.linkedin.com/in/x/school/y").toList) = true := by
  decide

/-- Claim C2 (amended): linkedin_finder's filter accepts a link iff it
contains "linkedin.com/in/" and none of its five excluded segments;
demo_app's filter accepts iff the link contains "linkedin.com/in/" and none
of its three excluded segments (/company/, /jobs/, /posts/); in both
pipelines only accepted links produce output rows, a rejected raw result
being skipped with only the rank counter advancing. -/
theorem claim_C2_filter :
    (∀ u : List Char, acceptLink u = true ↔
      (profileMarker <:+: u ∧ ∀ x ∈ excludedSegments, ¬x <:+: u)) ∧
    (∀ u : List Char, demoAcceptLink u = true ↔
      (profileMarker <:+: u ∧ ∀ x ∈ demoExcludedSegments, ¬x <:+: u)) ∧
    (∀ (name state : List Char) (idx : Nat) (seen : List (List Char))
      (r : RawResult) (rs : List RawResult),
      acceptLink (r.link.getD []) = false →
      scanResults name state idx seen (r :: rs) =
        scanResults name state (idx + 1) seen rs) ∧
    (∀ (name state : List Char) (rank : Nat) (r : RawResult)
      (rs : List RawResult),
      demoAcceptLink (r.link.getD []) = false →
      demoScan name state rank (r :: rs) = demoScan name state (rank + 1) rs) := by
  refine ⟨acceptLink_iff, demoAcceptLink_iff, ?_, ?_⟩
  · intro name state idx seen r rs ha
    exact scanResults_cons_reject ha
  · intro name state rank r rs ha
    exact demoScan_cons_reject ha

/-- Claim C2 witness: concrete instantiation of the amended claim. -/
theorem claim_C2_witness :
    acceptLink ((⟨some (("https://x.com/a").toList), none, none⟩ :
      RawResult).link.getD []) = false ∧
    scanResults (("N").toList) (("S").toList) 1 []
      [⟨some (("https://x.com/a").toList), none, none⟩] = [] ∧
    (profileMarker <:+: (("https://www.linkedin.com/in/ok").toList) ∧
      ∀ x ∈ excludedSegments, ¬x <:+: (("https://www.linkedin.com/in/ok").toList)) := by
  refine ⟨by decide, ?_,
    (claim_C2_filter.1 (("https://www.linkedin.com/in/ok").toList)).mp (by decide)⟩
  rw [claim_C2_filter.2.2.1 (("N").toList) (("S").toList) 1 []
    ⟨some (("https://x.com/a").toList), none, none⟩ [] (by decide)]
  rfl

/-- Claim C3: for every Target, the generated query string is exactly
"<name>" "CPA" "<state>" "United States" LinkedIn with that literal quoting
and token order, and in particular for name "John Doe" and state "Maine" it
is exactly the string "John Doe" "CPA" "Maine" "United States" LinkedIn. -/
theorem claim_C3_query :
    (∀ name state : List Char,
      buildQuery name state =
        ("\"").toList ++ name ++ ("\" \"CPA\" \"").toList ++ state ++
          ("\" \"United States\" LinkedIn").toList) ∧
    buildQuery (("John Doe").toList) (("Maine").toList) =
      ("\"John Doe\" \"CPA\" \"Maine\" \"United States\" LinkedIn").toList := by
  exact ⟨fun _ _ => rfl, by decide⟩

/-- Claim C4: within one Target the emitted linkedin_url values are pairwise
distinct (the seen set is created fresh for each Target), and there is no
cross-Target deduplication: the concrete run shows a URL deduplicated inside
the first Target yet emitted again for the second Target. -/
theorem claim_C4_dedup :
    (∀ (t : Target) (o : FetchOutcome),
      ((processTarget t o).map (fun r => r.linkedin_url)).Nodup) ∧
    (searchCpaProfiles
        [(⟨("A").toList, ("X").toList⟩,
          .success ⟨some
            [⟨some (("linkedin.com/in/dup?a=1").toList), none, none⟩,
             ⟨some (("linkedin.com/in/dup?b=2").toList), none, none⟩]⟩),
         (⟨("B").toList, ("Y").toList⟩,
          .success ⟨some [⟨some (("linkedin.com/in/dup").toList), none, none⟩]⟩)]
      = [⟨("A").toList, ("X").toList, 1, ("linkedin.com/in/dup").toList, [], []⟩,
         ⟨("B").toList, ("Y").toList, 1, ("linkedin.com/in/dup").toList, [], []⟩]) := by
  constructor
  · intro t o
    cases o with
    | failure => simp [processTarget]
    | success data => exact (scanResults_nodup t.name t.state _ 1 []).1
  · decide

/-- Claim C5: every record emitted by search_cpa_profiles for a successful
Target carries as google_rank the 1-based position of its raw result in the
original organic list (not the position among accepted results), and its
meta_title and meta_description are the raw title and snippet with the empty
string as default for absent fields. -/
theorem claim_C5_rank_meta (t : Target) (resp : SerperResponse)
    (rec : ResultRecord) (h : rec ∈ processTarget t (.success resp)) :
    1 ≤ rec.google_rank ∧
    ∃ r, (resp.organic.getD [])[rec.google_rank - 1]? = some r ∧
      acceptLink (r.link.getD []) = true ∧
      rec.linkedin_url = normalizeUrl (r.link.getD []) ∧
      rec.meta_title = r.title.getD [] ∧
      rec.meta_description = r.snippet.getD [] := by
  rcases scanResults_mem t.name t.state _ 1 [] rec h with
    ⟨j, r, hj, hrank, ha, hurl, htit, hsnip, _, _⟩
  have h1 : 1 ≤ rec.google_rank := by omega
  have h2 : rec.google_rank - 1 = j := by omega
  rw [h2]
  exact ⟨h1, r, hj, ha, hurl, htit, hsnip⟩

/-- Record used by the witness of claim C5: accepted at original rank 2,
after a rejected result at rank 1. -/
def c5Rec : ResultRecord :=
  ⟨("N").toList, ("S").toList, 2, ("linkedin.com/in/a").toList,
   ("T").toList, []⟩

/-- Response used by the witness of claim C5. -/
def c5Resp : SerperResponse :=
  ⟨some [⟨some (("nope").toList), none, none⟩,
         ⟨some (("linkedin.com/in/a?q=1").toList), some (("T").toList), none⟩]⟩

/-- Claim C5 witness: concrete instantiation with a rank gap (the accepted
result sits at original position 2 though it is the first accepted one). -/
theorem claim_C5_witness :
    c5Rec ∈ processTarget ⟨("N").toList, ("S").toList⟩ (.success c5Resp) ∧
    (1 ≤ c5Rec.google_rank ∧
     ∃ r, (c5Resp.organic.getD [])[c5Rec.google_rank - 1]? = some r ∧
       acceptLink (r.link.getD []) = true ∧
       c5Rec.linkedin_url = normalizeUrl (r.link.getD []) ∧
       c5Rec.meta_title = r.title.getD [] ∧
       c5Rec.meta_description = r.snippet.getD []) := by
  have hm : c5Rec ∈ processTarget ⟨("N").toList, ("S").toList⟩ (.success c5Resp) := by
    decide
  exact ⟨hm, claim_C5_rank_meta _ _ _ hm⟩

/-- Claim C6: for every input, the URL normalizer returns exactly the
reassembly of the scheme, netloc and path of the parsed input (query string
and fragment discarded), it is deterministic (a function of the input by
construction), and its result contains no '?' and no '#'. -/
theorem claim_C6_normalizer (u : List Char) :
    normalizeUrl u =
      urlunparse ⟨(urlparse u).scheme, (urlparse u).netloc,
        (urlparse u).path, [], [], []⟩ ∧
    '?' ∉ normalizeUrl u ∧ '#' ∉ normalizeUrl u :=
  ⟨rfl, normalize_no_query_frag u⟩

/-- Claim C7 counterexample: normalization is not idempotent on every URL:
normalizing "/////x" yields "///x", and normalizing that yields "/x". -/
theorem claim_C7_counterexample :
    normalizeUrl (normalizeUrl (("/////x").toList)) ≠
      normalizeUrl (("/////x").toList) := by
  decide

/-- Claim C7 (amended): normalization is idempotent on every URL whose parse
has a nonempty netloc or a path not beginning with "//"; the unrestricted
claim fails because a reassembled empty-netloc URL whose path starts with
"//" reparses with part of the path consumed as a netloc marker. -/
theorem claim_C7_idempotent (u : List Char)
    (h : (urlparse u).netloc ≠ [] ∨
      startsWithSlashSlash (urlparse u).path = false) :
    normalizeUrl (normalizeUrl u) = normalizeUrl u :=
  normalize_idem_cond u h

/-- Claim C7 witness: concrete instantiation on a LinkedIn profile URL with
tracking parameters. -/
theorem claim_C7_witness :
    ((urlparse (("https://www.linkedin.com/in/johndoe?trk=1").toList)).netloc ≠ [] ∨
      startsWithSlashSlash
        (urlparse (("https://www.linkedin.com/in/johndoe?trk=1").toList)).path = false) ∧
    normalizeUrl (normalizeUrl (("https://www.linkedin.com/in/johndoe?trk=1").toList)) =
      normalizeUrl (("https://www.linkedin.com/in/johndoe?trk=1").toList) := by
  refine ⟨Or.inl (by decide), claim_C7_idempotent _ (Or.inl (by decide))⟩

/-- Claim C8: a Target whose search request fails with a transport error is
recovered locally: it contributes no rows at all (not even a placeholder),
and the batch continues with the remaining Targets exactly as if the failed
Target were absent. -/
theorem claim_C8_request_failure (t : Target)
    (rest : List (Target × FetchOutcome)) :
    processTarget t .failure = [] ∧
    searchCpaProfiles ((t, .failure) :: rest) = searchCpaProfiles rest := by
  refine ⟨rfl, ?_⟩
  simp [searchCpaProfiles, processTarget]

/-- Claim C9: a raw result with no link field is treated as having the empty
string as its link: it is rejected by the filter and contributes no output
row, with no error raised (the scan simply advances to the next result). -/
theorem claim_C9_missing_link (r : RawResult) (h : r.link = none) :
    acceptLink (r.link.getD []) = false ∧
    ∀ (name state : List Char) (idx : Nat) (seen : List (List Char))
      (rs : List RawResult),
      scanResults name state idx seen (r :: rs) =
        scanResults name state (idx + 1) seen rs := by
  have h0 : r.link.getD [] = [] := by
    rw [h]
    rfl
  constructor
  · rw [h0]
    decide
  · intro name state idx seen rs
    apply scanResults_cons_reject
    rw [h0]
    decide

/-- Claim C9 witness: concrete instantiation on a result with no fields. -/
theorem claim_C9_witness :
    (⟨none, none, none⟩ : RawResult).link = none ∧
    scanResults (("T").toList) (("S").toList) 1 []
      [(⟨none, none, none⟩ : RawResult)] = [] := by
  refine ⟨rfl, ?_⟩
  rw [(claim_C9_missing_link ⟨none, none, none⟩ rfl).2 (("T").toList)
    (("S").toList) 1 [] []]
  rfl

/-- Claim C10: the filter tests the raw link with its query string while the
emitted linkedin_url is the normalized URL: the link below contains
"linkedin.com/in/" only inside its query string, it is accepted, and the
emitted linkedin_url does not contain "linkedin.com/in/". -/
theorem claim_C10_raw_vs_clean :
    acceptLink
      (("https://example.com/profile?next=linkedin.com/in/jdoe").toList) = true ∧
    normalizeUrl
      (("https://example.com/profile?next=linkedin.com/in/jdoe").toList) =
      ("https://example.com/profile").toList ∧
    containsSub profileMarker
      (normalizeUrl
        (("https://example.com/profile?next=linkedin.com/in/jdoe").toList)) = false ∧
    scanResults (("N").toList) (("S").toList) 1 []
      [⟨some (("https://example.com/profile?next=linkedin.com/in/jdoe").toList),
        none, none⟩] =
      [⟨("N").toList, ("S").toList, 1, ("https://example.com/profile").toList,
        [], []⟩] := by
  decide

/-! ## Sanity checks of the model against the repository's unit tests -/

example :
    normalizeUrl
      (("https://www.linkedin.com/in/johndoe?originalSubdomain=uk&trackingId=123").toList)
      = ("https://www.linkedin.com/in/johndoe").toList := by decide

example : acceptLink (("https://www.linkedin.com/in/johndoe").toList) = true := by
  decide

example : acceptLink (("https://www.linkedin.com/company/doe-cpa").toList) = false := by
  decide

example : acceptLink (("https://www.linkedin.com/jobs/view/123").toList) = false := by
  decide

example :
    buildQuery (("John Doe").toList) (("Maine").toList)
      = ("\"John Doe\" \"CPA\" \"Maine\" \"United States\" LinkedIn").toList := by
  decide

end CpaScraper
